import Mathlib

/-!
Verification of the advanced-memory-bank storage core: a shallow embedding of
`TopicMemoryManager` (src/core/topic-memory-manager.ts) and `MemoryManager`
(the id-addressable memory store with its look-aside cache and the
project-identity detection cascade), together with proofs of the specified
properties.

JavaScript strings are modelled as Lean `String`; JavaScript objects used as
string-keyed dictionaries are modelled as association lists in property-creation
order, with `objOrder` computing the ECMAScript own-property iteration order
(array-index keys first, in ascending numeric order, then string keys in
creation order); `JSON.stringify` iterates properties in exactly that order, so
every document the manager writes to disk is an `objOrder`-image.  Timestamps
and importance values are `Int` (JavaScript numbers at integral values).
-/

namespace AMB

/-- ASCII lowercasing of a string, as `String.prototype.toLowerCase` acts on
the ASCII range (the claims only exercise ASCII data). -/
def toLowerStr (s : String) : String :=
  ⟨s.toList.map Char.toLower⟩

/-- Test that `needle` is a prefix of `hay` (character lists). -/
def isPrefixL : List Char → List Char → Bool
  | [], _ => true
  | _ :: _, [] => false
  | a :: as, b :: bs => a = b && isPrefixL as bs

/-- Test that `needle` occurs as a contiguous substring of `hay` (character lists). -/
def isInfixL (needle : List Char) : List Char → Bool
  | [] => isPrefixL needle []
  | c :: t => isPrefixL needle (c :: t) || isInfixL needle t

/-- The method `String.prototype.includes`: `includes hay needle` is true when `needle`
occurs inside `hay`. -/
def includes (hay needle : String) : Bool :=
  isInfixL needle.toList hay.toList

/-- Numeric value of a digit string. -/
def digitsVal (cs : List Char) : Nat :=
  cs.foldl (fun n c => n * 10 + (c.toNat - 48)) 0

/-- ECMAScript array-index test: a canonical decimal numeral in
`[0, 2^32 - 2]`.  Property keys of this shape are iterated first, in ascending
numeric order, by `OrdinaryOwnPropertyKeys`. -/
def isArrayIndex (s : String) : Bool :=
  match s.toList with
  | [] => false
  | c :: cs =>
    (c :: cs).all Char.isDigit && (decide (c ≠ '0') || decide (cs = [])) &&
      decide (digitsVal (c :: cs) < 4294967295)

/-- Numeric value of a property key (used only on array-index keys). -/
def idxVal (s : String) : Nat := digitsVal s.toList

/-- JavaScript property read `obj[k]` on a dictionary object: the value at the
first entry with key `k`. -/
def objGet {β : Type} (l : List (String × β)) (k : String) : Option β :=
  match l with
  | [] => none
  | (k2, v) :: rest => if k2 = k then some v else objGet rest k

/-- JavaScript property write `obj[k] = v`: replace the value in place when the
key exists (its position is unchanged), otherwise append the new entry. -/
def objSet {β : Type} (l : List (String × β)) (k : String) (v : β) :
    List (String × β) :=
  match l with
  | [] => [(k, v)]
  | (k2, v2) :: rest =>
    if k2 = k then (k2, v) :: rest else (k2, v2) :: objSet rest k v

/-- JavaScript `delete obj[k]` / removal of a file named `k`. -/
def objErase {β : Type} (l : List (String × β)) (k : String) :
    List (String × β) :=
  l.filter (fun p => decide (p.1 ≠ k))

/-- Insert `x` into `m` before the first element that is not strictly prior to
`x` under `lt`; the insertion step of a stable insertion sort. -/
def insertOrd {α : Type} (lt : α → α → Bool) (x : α) : List α → List α
  | [] => [x]
  | y :: ys => if lt y x then y :: insertOrd lt x ys else x :: y :: ys

/-- Stable sort by the strict comparison `lt` (the behaviour required of
`Array.prototype.sort`, which is stable per ES2019). -/
def insSortBy {α : Type} (lt : α → α → Bool) : List α → List α
  | [] => []
  | x :: xs => insertOrd lt x (insSortBy lt xs)

/-- Strict order of two entries by numeric key value (used to order
array-index keys). -/
def keyLt {β : Type} (a b : String × β) : Bool :=
  decide (idxVal a.1 < idxVal b.1)

/-- ECMAScript own-property iteration order of a dictionary object stored as a
creation-order association list: array-index keys first in ascending numeric
order, then the remaining keys in creation order.  `Object.keys`,
`Object.entries` and `JSON.stringify` all iterate in this order. -/
def objOrder {β : Type} (l : List (String × β)) : List (String × β) :=
  insSortBy keyLt (l.filter (fun p => isArrayIndex p.1)) ++
    l.filter (fun p => !isArrayIndex p.1)

/-! ## Topic store data model and operations (topic-memory-manager.ts) -/

/-- One topic record (interface `TopicMemory`). -/
structure TopicMemory where
  content : String
  tags : List String
  importance : Int
  timestamp : Int
  lastModified : Int
deriving DecidableEq, Repr

/-- A project document (interface `ProjectTopics`): the JSON object mapping
topic name to record, as the entry list of the stored file. -/
abbrev ProjectTopics := List (String × TopicMemory)

/-- The clamp `Math.max(1, Math.min(10, importance))`. -/
def clampImportance (i : Int) : Int := max 1 (min 10 i)

/-- Source `TopicMemoryManager.storeTopicMemory`: load the document, insert or
replace the named topic — `timestamp: topics[topic]?.timestamp || now` keeps
the previous creation time when it is truthy (nonzero) and otherwise stamps
`now` — clamp the importance, set `lastModified = now`, write the whole
document back (`JSON.stringify` iterates in property order, hence
`objOrder`). -/
def storeTopicMemory (doc : ProjectTopics) (topic content : String)
    (tags : List String) (importance : Int) (now : Int) : ProjectTopics :=
  let prevTimestamp : Int :=
    match objGet doc topic with
    | some old => if old.timestamp = 0 then now else old.timestamp
    | none => now
  objOrder (objSet doc topic
    { content := content
      tags := tags
      importance := clampImportance importance
      timestamp := prevTimestamp
      lastModified := now })

/-- Source `TopicMemoryManager.getTopicMemory`: `topics[topic] || null`. -/
def getTopicMemory (doc : ProjectTopics) (topic : String) : Option TopicMemory :=
  objGet doc topic

/-- Source `TopicMemoryManager.listTopics`: `Object.keys(topics)`, i.e. the keys in
own-property iteration order. -/
def listTopics (doc : ProjectTopics) : List String :=
  (objOrder doc).map Prod.fst

/-- Source `TopicMemoryManager.updateTopicMemory`: throws when the topic is absent;
otherwise unspecified fields keep their previous values, a given importance is
clamped, `timestamp` is kept and `lastModified` refreshed. -/
def updateTopicMemory (doc : ProjectTopics) (topic : String)
    (content : Option String) (tags : Option (List String))
    (importance : Option Int) (now : Int) : Except String ProjectTopics :=
  match objGet doc topic with
  | none => .error ("Topic not found: " ++ topic)
  | some existing =>
    .ok (objOrder (objSet doc topic
      { content := content.getD existing.content
        tags := tags.getD existing.tags
        importance :=
          match importance with
          | some i => clampImportance i
          | none => existing.importance
        timestamp := existing.timestamp
        lastModified := now }))

/-- The stored document after `updateTopicMemory`: a thrown `NotFound` happens
before `saveProject`, so the file is unchanged on failure. -/
def updateResultDoc (doc : ProjectTopics) (topic : String)
    (content : Option String) (tags : Option (List String))
    (importance : Option Int) (now : Int) : ProjectTopics :=
  match updateTopicMemory doc topic content tags importance now with
  | .ok doc2 => doc2
  | .error _ => doc

/-- The ten predefined topic names (`FIXED_TOPICS`). -/
def FIXED_TOPICS : List String :=
  ["summary", "libraries", "change-history", "architecture", "todo",
   "bugs", "features", "documentation", "testing", "deployment"]

/-- The heading case change `topic.charAt(0).toUpperCase() + topic.slice(1)`. -/
def capitalizeFirst (s : String) : String :=
  match s.toList with
  | [] => ""
  | c :: rest => ⟨Char.toUpper c :: rest⟩

/-- The placeholder record `initializeFixedTopics` creates for an absent fixed
topic. -/
def fixedTopicRecord (topic : String) (now : Int) : TopicMemory :=
  { content := "# " ++ capitalizeFirst topic ++ "\n\nAguardando conteúdo..."
    tags := ["fixed-topic", topic]
    importance := 5
    timestamp := now
    lastModified := now }

/-- The loop body of `initializeFixedTopics` over the list of fixed names:
`if (!topics[topic]) topics[topic] = {...}`. -/
def initFixedLoop (names : List String) (doc : ProjectTopics) (now : Int) :
    ProjectTopics :=
  names.foldl
    (fun acc t =>
      match objGet acc t with
      | some _ => acc
      | none => objSet acc t (fixedTopicRecord t now))
    doc

/-- Source `TopicMemoryManager.initializeFixedTopics`. -/
def initializeFixedTopics (doc : ProjectTopics) (now : Int) : ProjectTopics :=
  objOrder (initFixedLoop FIXED_TOPICS doc now)

/-! ## Topic search (searchTopicMemories) -/

/-- One search hit. -/
structure SearchResult where
  topic : String
  memory : TopicMemory
  score : Nat
deriving DecidableEq, Repr

/-- The accumulated score of one topic against the lowercased query: content
substring match is worth 3, any tag substring match 2, topic-name substring
match 1. -/
def scoreTopic (queryLower name : String) (m : TopicMemory) : Nat :=
  (if includes (toLowerStr m.content) queryLower then 3 else 0) +
  (if m.tags.any (fun tag => includes (toLowerStr tag) queryLower) then 2 else 0) +
  (if includes (toLowerStr name) queryLower then 1 else 0)

/-- The sort comparison of `searchTopicMemories`:
`(a, b) => b.score - a.score || b.memory.importance - a.memory.importance`;
`a` precedes `b` exactly when the comparator is negative. -/
def resultLt (a b : SearchResult) : Bool :=
  decide (b.score < a.score) ||
    (decide (a.score = b.score) && decide (b.memory.importance < a.memory.importance))

/-- Source `TopicMemoryManager.searchTopicMemories`: iterate `Object.entries`, keep
positive scores, sort stably by the comparator, truncate to `limit`. -/
def searchTopicMemories (doc : ProjectTopics) (query : String) (limit : Nat) :
    List SearchResult :=
  let queryLower := toLowerStr query
  let results := (objOrder doc).filterMap
    (fun p =>
      let s := scoreTopic queryLower p.1 p.2
      if 0 < s then some ⟨p.1, p.2, s⟩ else none)
  (insSortBy resultLt results).take limit

/-- Modelled from the spec (section 4.3 SearchRanker): items scored by the
per-field points, zero scores excluded, ordered by descending score, ties by
descending importance, remaining ties stable in the original stored order —
stability expressed by sorting index-tagged items under the total order that
breaks final ties by ascending original position — and truncated to the
requested limit. -/
def specResultLt (a b : Nat × SearchResult) : Bool :=
  decide (b.2.score < a.2.score) ||
    (decide (a.2.score = b.2.score) &&
      (decide (b.2.memory.importance < a.2.memory.importance) ||
        (decide (a.2.memory.importance = b.2.memory.importance) &&
          decide (a.1 < b.1))))

/-- Modelled from the spec: the search result described by section 4.3, built
over the stored entry order of the document. -/
def searchSpec (doc : ProjectTopics) (query : String) (limit : Nat) :
    List SearchResult :=
  let queryLower := toLowerStr query
  let scored := doc.enum.map
    (fun p => (p.1, SearchResult.mk p.2.1 p.2.2 (scoreTopic queryLower p.2.1 p.2.2)))
  let kept := scored.filter (fun p => decide (p.2.score ≠ 0))
  ((insSortBy specResultLt kept).map Prod.snd).take limit

/-! ## Memory store (MemoryManager): disk directory plus look-aside cache -/

/-- One memory record (interface `Memory`). -/
structure Memory where
  id : String
  content : String
  tags : List String
  importance : Int
  timestamp : Int
  projectContext : String
deriving DecidableEq, Repr

/-- The observable state of `MemoryManager`: the per-id JSON files on disk
(keyed by file basename) and the LRU cache entries (keyed by cache key).
Recency/TTL bookkeeping of the cache is irrelevant to the claims: evictions are
modelled as arbitrary entry removals. -/
structure MMState where
  disk : List (String × Memory)
  cache : List (String × Memory)
deriving DecidableEq, Repr

/-- Source `MemoryManager.storeMemory` with the generated id supplied by the caller
(the generator `mem-<time36>-<rand36>` is an external source of names): clamp
the importance, stamp `timestamp = now`, write to cache and disk. -/
def storeMemoryStep (s : MMState) (id content : String) (tags : List String)
    (importance now : Int) (project : String) : Memory × MMState :=
  let m : Memory :=
    { id := id
      content := content
      tags := tags
      importance := clampImportance importance
      timestamp := now
      projectContext := project }
  (m, { disk := objSet s.disk id m, cache := objSet s.cache id m })

/-- Source `MemoryManager.getMemory`: cache hit short-circuits; otherwise read the
file `<id>.json`, populate the cache on a hit, or return null. -/
def getMemoryStep (s : MMState) (id : String) : Option Memory × MMState :=
  match objGet s.cache id with
  | some m => (some m, s)
  | none =>
    match objGet s.disk id with
    | some m => (some m, { s with cache := objSet s.cache id m })
    | none => (none, s)

/-- The field merge of `updateMemory`: given fields replace, `id` and
`timestamp` are kept, a given importance is clamped. -/
def mergeMemory (m : Memory) (content : Option String)
    (tags : Option (List String)) (importance : Option Int) : Memory :=
  { m with
    content := content.getD m.content
    tags := tags.getD m.tags
    importance :=
      match importance with
      | some i => clampImportance i
      | none => m.importance }

/-- Source `MemoryManager.updateMemory`: false when the memory is not found;
otherwise merge the given fields (keeping `id` and `timestamp`), refresh the
cache and persist (the file is named from `memory.id`). -/
def updateMemoryStep (s : MMState) (id : String) (content : Option String)
    (tags : Option (List String)) (importance : Option Int) : Bool × MMState :=
  match getMemoryStep s id with
  | (none, s1) => (false, s1)
  | (some m, s1) =>
    (true,
     { disk := objSet s1.disk (mergeMemory m content tags importance).id
         (mergeMemory m content tags importance),
       cache := objSet s1.cache id (mergeMemory m content tags importance) })

/-- Source `MemoryManager.deleteMemory`: remove from cache and disk; true absent an
I/O failure (the model does not inject I/O failures). -/
def deleteMemoryStep (s : MMState) (id : String) : Bool × MMState :=
  (true, { disk := objErase s.disk id, cache := objErase s.cache id })

/-- One operation of the memory store, interleaved with arbitrary cache
evictions (capacity or TTL expiry removes some set of keys). -/
inductive MMOp where
  | store (id content : String) (tags : List String) (importance now : Int)
      (project : String)
  | get (id : String)
  | update (id : String) (content : Option String) (tags : Option (List String))
      (importance : Option Int)
  | delete (id : String)
  | evict (ids : List String)

/-- State transition of one operation. -/
def applyOp (s : MMState) : MMOp → MMState
  | .store id content tags importance now project =>
    (storeMemoryStep s id content tags importance now project).2
  | .get id => (getMemoryStep s id).2
  | .update id content tags importance =>
    (updateMemoryStep s id content tags importance).2
  | .delete id => (deleteMemoryStep s id).2
  | .evict ids => { s with cache := s.cache.filter (fun p => !ids.contains p.1) }

/-- Files on disk are written by `persistMemory` to `<memory.id>.json`, so the
key of every record matches its `id` field; cache entries are written under the
requested id, which the operations keep equal to the record id. -/
def KeysMatch (l : List (String × Memory)) : Prop :=
  ∀ p ∈ l, p.2.id = p.1

/-- Every cache entry agrees with the on-disk record for its id. -/
def CacheCoherent (s : MMState) : Prop :=
  ∀ id m, objGet s.cache id = some m → objGet s.disk id = some m

/-- States reachable from a fresh manager (empty cache, any directory of
well-formed per-id files) by the memory-store operations. -/
inductive ReachMM : MMState → Prop where
  | init (d0 : List (String × Memory)) (h : KeysMatch d0) :
      ReachMM { disk := d0, cache := [] }
  | step (s : MMState) (op : MMOp) : ReachMM s → ReachMM (applyOp s op)

/-- Should `cleanupOldMemories` delete this memory: older than the cutoff and
of importance below the fixed retention threshold 5. -/
def cleanupDeletes (cutoff : Int) (m : Memory) : Bool :=
  decide (m.timestamp < cutoff) && decide (m.importance < 5)

/-- The loop of `cleanupOldMemories` over the snapshot list of loaded
memories: delete each qualifying memory and count the successes. -/
def cleanupLoop (cutoff : Int) : List Memory → MMState → Nat × MMState
  | [], s => (0, s)
  | m :: rest, s =>
    if cleanupDeletes cutoff m then
      let s1 := (deleteMemoryStep s m.id).2
      let r := cleanupLoop cutoff rest s1
      (r.1 + 1, r.2)
    else
      cleanupLoop cutoff rest s

/-- Source `MemoryManager.cleanupOldMemories maxAge`: load all memories, delete those
older than `now - maxAge` with importance below 5, return the count deleted. -/
def cleanupOldMemories (s : MMState) (maxAge now : Int) : Nat × MMState :=
  cleanupLoop (now - maxAge) (s.disk.map Prod.snd) s

/-! ## Project-identity detection (MemoryManager.detectProjectNameWithSource)

Each detection strategy (`detectVSCodeActiveWorkspaceAdvanced`,
`detectUserSpecifiedProject`, ...) wraps its whole body in try/catch and
returns `{name: null, source: <error tag>}` on a thrown error.  The cascade is
modelled over an environment of oracles: each strategy body is an
`Except Unit Cand` (its raw outcome, error meaning a throw inside the body),
`process.cwd()` is an `Except Unit String` (it is called in the cascade glue,
outside any inner try/catch), and the filesystem probes used directly by the
cascade are boolean oracles.  The validators `isValidProjectName`,
`sanitizeProjectName` and `isSystemOrVSCodePath` are translated concretely. -/

/-- The denylist `invalidNames` of `isValidProjectName` (verbatim, including
the mixed-case entries that can never match a lowercased name). -/
def invalidNames : List String :=
  ["src", "dist", "build", "out", "bin", "lib",
   "node_modules", "Users", "Documents", "Desktop",
   "Downloads", "AppData", "Program Files", "Windows",
   "System32", "temp", "tmp", ".", "..",
   "andre", "user", "admin", "home", "root", "dev",
   "microsoft-vs-code", "vs-code", "vscode", "code",
   "visual-studio-code", "microsoft", "electron",
   "extensions", "extension", "crash", "crashes",
   "logs", "log", "cache", "caches"]

/-- The `forbiddenPatterns` substring denylist of `isValidProjectName`. -/
def forbiddenPatterns : List String :=
  ["microsoft", "vs-code", "vscode", "visual-studio",
   "electron", "extension", "crash", "log", "cache",
   "user", "admin", "system", "windows", "appdata"]

/-- The regex of single lowercase letters (a to z) on the lowercased name. -/
def isSingleLowerLetter (s : String) : Bool :=
  match s.toList with
  | [c] => decide ('a' ≤ c) && decide (c ≤ 'z')
  | _ => false

/-- The regex of single letters c to z on the lowercased name
(drive-letter-like names). -/
def isDriveLetterName (s : String) : Bool :=
  match s.toList with
  | [c] => decide ('c' ≤ c) && decide (c ≤ 'z')
  | _ => false

/-- Source `MemoryManager.isValidProjectName`. -/
def isValidProjectName (name : String) : Bool :=
  if name = "" || name.length < 2 then false
  else
    let lowerName := toLowerStr name
    if forbiddenPatterns.any (fun pat => includes lowerName pat) then false
    else
      !invalidNames.contains lowerName &&
      !isSingleLowerLetter lowerName &&
      !isDriveLetterName lowerName

/-- Characters the sanitizer keeps: `[a-z0-9-_]`. -/
def keepChar (c : Char) : Bool :=
  (decide ('a' ≤ c) && decide (c ≤ 'z')) ||
  (decide ('0' ≤ c) && decide (c ≤ '9')) ||
  decide (c = '-') || decide (c = '_')

/-- Collapse each run of dashes to a single dash (the `replace` of one or more
dashes by a single dash). -/
def collapseDashes : List Char → List Char
  | [] => []
  | [c] => [c]
  | a :: b :: rest =>
    if a = '-' && b = '-' then collapseDashes (b :: rest)
    else a :: collapseDashes (b :: rest)

/-- Source `MemoryManager.sanitizeProjectName`: lowercase, replace characters outside
`[a-z0-9-_]` with a dash, strip leading/trailing dashes, collapse dash runs,
truncate to 50 characters, default `"project"` when empty. -/
def sanitizeProjectName (name : String) : String :=
  let cs := name.toList.map Char.toLower
  let cs := cs.map (fun c => if keepChar c then c else '-')
  let cs := cs.dropWhile (fun c => c = '-')
  let cs := (cs.reverse.dropWhile (fun c => c = '-')).reverse
  let cs := collapseDashes cs
  let cs := cs.take 50
  if cs = [] then "project" else ⟨cs⟩

/-- The `blockedPaths` substring denylist of `isSystemOrVSCodePath`. -/
def blockedPaths : List String :=
  ["appdata", "microsoft", "vs-code", "vscode", "visual-studio",
   "electron", "extension", "extensions", "crash", "crashes",
   "logs", "log", "cache", "caches", "temp", "tmp",
   "program files", "windows", "system32", "users\\andre",
   "users\\user", "users\\admin"]

/-- Source `MemoryManager.isSystemOrVSCodePath`. -/
def isSystemOrVSCodePath (dirPath : String) : Bool :=
  let lowerPath := toLowerStr dirPath
  blockedPaths.any (fun blocked => includes lowerPath blocked)

/-- POSIX `path.basename`: drop trailing slashes, then the last segment. -/
def basename (p : String) : String :=
  let cs := (p.toList.reverse.dropWhile (fun c => c = '/')).reverse
  ⟨(cs.reverse.takeWhile (fun c => decide (c ≠ '/'))).reverse⟩

/-- The value a detection-strategy function returns:
`{name: string | null, source: string}`. -/
structure Cand where
  name : Option String
  source : String
deriving DecidableEq, Repr

/-- The identity the cascade returns: `{name, method, source}`. -/
structure Ident where
  name : String
  method : String
  source : String
deriving DecidableEq, Repr

/-- The try/catch wrapped around each strategy body: a thrown error becomes
`{name: null, source: <error tag>}`. -/
def recoverStrat (r : Except Unit Cand) (errSource : String) : Cand :=
  match r with
  | .ok c => c
  | .error _ => { name := none, source := errSource }

/-- The environment of one `detectProjectNameWithSource` call: the raw outcome
of each strategy body, the working directory, the home directory, and the
`hasProjectIndicators` filesystem probe (whose body catches internally). -/
structure DetectEnv where
  advanced : Except Unit Cand
  userCfg : Except Unit Cand
  activeWs : Except Unit Cand
  pkg : Except Unit Cand
  vsCfg : Except Unit Cand
  npx : Except Unit Cand
  enhanced : Except Unit Cand
  wsTrad : Except Unit Cand
  patterns : Except Unit Cand
  viaCmds : Except Unit Cand
  settings : Except Unit Cand
  cwd : Except Unit String
  homedir : String
  hasInd : String → Bool

/-- The guard `result.name && this.isValidProjectName(result.name)` (an empty
string is falsy): the validated candidate name, when any. -/
def checkCand (c : Cand) : Option String :=
  match c.name with
  | none => none
  | some n => if n ≠ "" && isValidProjectName n then some n else none

/-- One `if (result.name && isValid(result.name)) return {...}` step of the
cascade. -/
def tryStrat (c : Cand) (method : String)
    (k : Unit → Except Unit Ident) : Except Unit Ident :=
  match checkCand c with
  | some n => .ok { name := sanitizeProjectName n, method := method, source := c.source }
  | none => k ()

/-- An extra filter two strategies apply on top of validation:
`name !== 'microsoft-vs-code' && name !== 'andre' && name !== 'user'`. -/
def extraNameFilter (c : Cand) : Cand :=
  match c.name with
  | some n =>
    if n = "microsoft-vs-code" || n = "andre" || n = "user" then
      { c with name := none }
    else c
  | none => c

/-- The body of `detectProjectNameWithSource` inside its outer try: the
ordered strategy cascade.  `process.cwd()` is evaluated in the glue after the
first four strategies; a throw there escapes to the outer catch. -/
def detectCore (env : DetectEnv) : Except Unit Ident :=
  tryStrat (recoverStrat env.advanced "advanced-detection-error")
      "VS Code Active Workspace Detection" fun _ =>
  tryStrat (recoverStrat env.userCfg "user-config-error")
      "User Configuration" fun _ =>
  tryStrat (recoverStrat env.activeWs "active-workspace-detection-error")
      "Active VS Code Workspace" fun _ =>
  tryStrat (recoverStrat env.pkg "package.json read error")
      "Package.json" fun _ =>
  match env.cwd with
  | .error e => .error e
  | .ok currentDir =>
    let dirName := basename currentDir
    if isValidProjectName dirName && decide (currentDir ≠ env.homedir) &&
        !isSystemOrVSCodePath currentDir && env.hasInd currentDir then
      .ok { name := sanitizeProjectName dirName, method := "Directory Name",
            source := currentDir }
    else
    tryStrat (recoverStrat env.vsCfg "vscode-config-error")
        "VS Code Config Search" fun _ =>
    tryStrat (recoverStrat env.npx "parent-detection-error")
        "VS Code NPX Context" fun _ =>
    tryStrat (extraNameFilter (recoverStrat env.enhanced "enhanced-detection-error"))
        "Enhanced VS Code Detection" fun _ =>
    tryStrat (extraNameFilter (recoverStrat env.wsTrad "detection-error"))
        "VS Code Workspace" fun _ =>
    (if currentDir = env.homedir || isSystemOrVSCodePath currentDir then
      tryStrat (recoverStrat env.patterns "pattern-detection-error")
          "Smart Pattern Detection"
    else fun k => k ()) fun _ =>
    tryStrat (recoverStrat env.viaCmds "command-detection-error")
        "Command Detection" fun _ =>
    tryStrat (recoverStrat env.settings "vs-code-settings-error")
        "VS Code Recent Workspace" fun _ =>
    tryStrat (recoverStrat env.activeWs "active-workspace-detection-error")
        "Active VS Code Workspace Detection" fun _ =>
    let fallbackName :=
      if dirName ≠ "" && isValidProjectName dirName then dirName
      else "unknown-project"
    .ok { name := sanitizeProjectName fallbackName, method := "Fallback",
          source := "directory-basename-fallback" }

/-- The fixed identity of the outer catch. -/
def errorFallbackIdent : Ident :=
  { name := "unknown-project", method := "Error Fallback", source := "error-recovery" }

/-- Source `MemoryManager.detectProjectNameWithSource`: the cascade under its outer
try/catch — the function as observed by callers never throws. -/
def detectProjectNameWithSource (env : DetectEnv) : Ident :=
  match detectCore env with
  | .ok r => r
  | .error _ => errorFallbackIdent

/-! ## Lemmas: property lookup against set, erase, filter, append -/

theorem objGet_objSet_self {β : Type} (l : List (String × β)) (k : String) (v : β) :
    objGet (objSet l k v) k = some v := by
  induction l with
  | nil => simp [objSet, objGet]
  | cons p rest ih =>
    obtain ⟨k2, v2⟩ := p
    by_cases h : k2 = k
    · simp [objSet, objGet, h]
    · simp [objSet, objGet, h, ih]

theorem objGet_objSet_ne {β : Type} (l : List (String × β)) (k k2 : String) (v : β)
    (hne : k2 ≠ k) : objGet (objSet l k v) k2 = objGet l k2 := by
  have hne2 : k ≠ k2 := Ne.symm hne
  induction l with
  | nil => simp [objSet, objGet, hne2]
  | cons p rest ih =>
    obtain ⟨ka, va⟩ := p
    by_cases h : ka = k
    · subst h
      simp [objSet, objGet, hne2]
    · simp only [objSet, if_neg h]
      by_cases h2 : ka = k2
      · simp [objGet, h2]
      · simp [objGet, h2, ih]

theorem objGet_objErase_self {β : Type} (l : List (String × β)) (k : String) :
    objGet (objErase l k) k = none := by
  induction l with
  | nil => simp [objErase, objGet]
  | cons p rest ih =>
    obtain ⟨ka, va⟩ := p
    by_cases h : ka = k
    · simpa [objErase, objGet, h] using ih
    · simpa [objErase, objGet, h] using ih

theorem objGet_objErase_ne {β : Type} (l : List (String × β)) (k k2 : String)
    (hne : k2 ≠ k) : objGet (objErase l k) k2 = objGet l k2 := by
  induction l with
  | nil => simp [objErase, objGet]
  | cons p rest ih =>
    obtain ⟨ka, va⟩ := p
    by_cases h : ka = k
    · subst h
      have hne2 : ka ≠ k2 := fun h2 => hne h2.symm
      simpa [objErase, objGet, hne2] using ih
    · by_cases h2 : ka = k2
      · subst h2
        simp [objErase, objGet, List.filter_cons, h]
      · simpa [objErase, objGet, List.filter_cons, h, h2] using ih

theorem objGet_eq_none_of_keys {β : Type} (l : List (String × β)) (k : String)
    (h : ∀ p ∈ l, p.1 ≠ k) : objGet l k = none := by
  induction l with
  | nil => rfl
  | cons p rest ih =>
    obtain ⟨ka, va⟩ := p
    have hka : ka ≠ k := h (ka, va) (by simp)
    simp only [objGet, if_neg hka]
    exact ih fun q hq => h q (by simp [hq])

theorem objGet_filter_key {β : Type} (pr : String → Bool) (l : List (String × β))
    (k : String) (hk : pr k = true) :
    objGet (l.filter fun q => pr q.1) k = objGet l k := by
  induction l with
  | nil => rfl
  | cons p rest ih =>
    obtain ⟨ka, va⟩ := p
    by_cases h : ka = k
    · subst h
      simp [objGet, hk]
    · by_cases hp : pr ka
      · simp [objGet, hp, h, ih]
      · simp only [List.filter_cons]
        rw [if_neg (by simp [hp])]
        simp [objGet, h, ih]

theorem objGet_filter_none {β : Type} (pr : String → Bool) (l : List (String × β))
    (k : String) (hk : pr k = false) :
    objGet (l.filter fun q => pr q.1) k = none := by
  refine objGet_eq_none_of_keys _ _ fun p hp => ?_
  intro hpk
  have := (List.mem_filter.mp hp).2
  rw [hpk, hk] at this
  exact Bool.false_ne_true this

theorem objGet_append_some {β : Type} (a b : List (String × β)) (k : String)
    (v : β) (h : objGet a k = some v) : objGet (a ++ b) k = some v := by
  induction a with
  | nil => simp [objGet] at h
  | cons p rest ih =>
    obtain ⟨ka, va⟩ := p
    by_cases hk : ka = k
    · simp only [objGet, if_pos hk] at h
      simp [objGet, hk, h]
    · simp only [objGet, if_neg hk] at h
      simp [objGet, hk, ih h]

theorem objGet_append_none {β : Type} (a b : List (String × β)) (k : String)
    (h : objGet a k = none) : objGet (a ++ b) k = objGet b k := by
  induction a with
  | nil => rfl
  | cons p rest ih =>
    obtain ⟨ka, va⟩ := p
    by_cases hk : ka = k
    · simp [objGet, hk] at h
    · simp only [objGet, if_neg hk] at h
      simp [objGet, hk, ih h]

/-! ## Lemmas: stable insertion sort -/

theorem insertOrd_perm {α : Type} (lt : α → α → Bool) (x : α) (l : List α) :
    List.Perm (insertOrd lt x l) (x :: l) := by
  induction l with
  | nil => simp [insertOrd]
  | cons y ys ih =>
    by_cases h : lt y x
    · simp only [insertOrd, if_pos h]
      exact (ih.cons y).trans (List.Perm.swap x y ys)
    · simp [insertOrd, h]

theorem insSortBy_perm {α : Type} (lt : α → α → Bool) (l : List α) :
    List.Perm (insSortBy lt l) l := by
  induction l with
  | nil => rfl
  | cons x xs ih =>
    exact (insertOrd_perm lt x (insSortBy lt xs)).trans (ih.cons x)

theorem objGet_insertOrd {β : Type} (lt : String × β → String × β → Bool)
    (hlt : ∀ a b, lt a b = true → a.1 ≠ b.1) (x : String × β)
    (m : List (String × β)) (k : String) :
    objGet (insertOrd lt x m) k = objGet (x :: m) k := by
  induction m with
  | nil => rfl
  | cons y ys ih =>
    by_cases h : lt y x
    · simp only [insertOrd, if_pos h]
      obtain ⟨yk, yv⟩ := y
      obtain ⟨xk, xv⟩ := x
      by_cases hy : yk = k
      · have hx : xk ≠ k := by
          intro hx
          exact hlt (yk, yv) (xk, xv) h (by simp [hy, hx])
        simp [objGet, hy, hx]
      · simp only [objGet, if_neg hy]
        rw [ih]
        by_cases hx : xk = k
        · simp [objGet, hx]
        · simp [objGet, hx, hy]
    · simp [insertOrd, h]

theorem objGet_insSortBy {β : Type} (lt : String × β → String × β → Bool)
    (hlt : ∀ a b, lt a b = true → a.1 ≠ b.1) (l : List (String × β)) (k : String) :
    objGet (insSortBy lt l) k = objGet l k := by
  induction l with
  | nil => rfl
  | cons x xs ih =>
    rw [insSortBy, objGet_insertOrd lt hlt]
    obtain ⟨xk, xv⟩ := x
    by_cases hx : xk = k
    · simp [objGet, hx]
    · simp [objGet, hx, ih]

theorem keyLt_key_ne {β : Type} (a b : String × β) (h : keyLt a b = true) :
    a.1 ≠ b.1 := by
  intro he
  simp [keyLt, he] at h

theorem objGet_objOrder {β : Type} (l : List (String × β)) (k : String) :
    objGet (objOrder l) k = objGet l k := by
  by_cases hk : isArrayIndex k
  · rw [objOrder]
    have h1 : objGet (insSortBy keyLt (l.filter fun p => isArrayIndex p.1)) k =
        objGet l k := by
      rw [objGet_insSortBy keyLt keyLt_key_ne]
      exact objGet_filter_key _ l k hk
    cases hv : objGet l k with
    | some v => exact objGet_append_some _ _ _ _ (h1.trans hv)
    | none =>
      have h2 : objGet (l.filter fun p => !isArrayIndex p.1) k = none :=
        objGet_filter_none (fun s => !isArrayIndex s) l k (by simp [hk])
      rw [objGet_append_none _ _ _ (h1.trans hv)]
      simp [h2, hv]
  · have hk2 : isArrayIndex k = false := by simpa using hk
    rw [objOrder]
    have h1 : objGet (insSortBy keyLt (l.filter fun p => isArrayIndex p.1)) k =
        none := by
      rw [objGet_insSortBy keyLt keyLt_key_ne]
      exact objGet_filter_none _ l k hk2
    rw [objGet_append_none _ _ _ h1]
    exact objGet_filter_key (fun s => !isArrayIndex s) l k (by simp [hk2])

theorem chain'_insertOrd {α : Type} (lt : α → α → Bool)
    (hasym : ∀ a b, lt a b = true → lt b a = false) (x : α) (m : List α)
    (hm : List.Chain' (fun a b => lt b a = false) m) :
    List.Chain' (fun a b => lt b a = false) (insertOrd lt x m) := by
  induction m with
  | nil => simp [insertOrd]
  | cons y ys ih =>
    by_cases hyx : lt y x = true
    · simp only [insertOrd, if_pos hyx]
      have htail := ih hm.tail
      rw [List.chain'_cons']
      refine ⟨?_, htail⟩
      intro b hb
      cases ys with
      | nil =>
        simp [insertOrd] at hb
        subst hb
        exact hasym y x hyx
      | cons z zs =>
        by_cases hzx : lt z x = true
        · simp [insertOrd, hzx] at hb
          subst hb
          exact (List.chain'_cons.mp hm).1
        · simp [insertOrd, hzx] at hb
          subst hb
          exact hasym y x hyx
    · simp only [insertOrd, if_neg hyx]
      rw [List.chain'_cons]
      exact ⟨by simpa using hyx, hm⟩

theorem chain'_insSortBy {α : Type} (lt : α → α → Bool)
    (hasym : ∀ a b, lt a b = true → lt b a = false) (l : List α) :
    List.Chain' (fun a b => lt b a = false) (insSortBy lt l) := by
  induction l with
  | nil => simp [insSortBy]
  | cons x xs ih => exact chain'_insertOrd lt hasym x _ ih

theorem insSortBy_eq_self_of_chain' {α : Type} (lt : α → α → Bool) (l : List α)
    (h : List.Chain' (fun a b => lt b a = false) l) : insSortBy lt l = l := by
  induction l with
  | nil => rfl
  | cons x xs ih =>
    rw [insSortBy, ih h.tail]
    cases xs with
    | nil => rfl
    | cons y ys =>
      have hxy : lt y x = false := (List.chain'_cons.mp h).1
      simp [insertOrd, hxy]

theorem keyLt_asym {β : Type} (a b : String × β) (h : keyLt a b = true) :
    keyLt b a = false := by
  simp only [keyLt, decide_eq_true_eq] at h
  simp only [keyLt, decide_eq_false_iff_not]
  omega

theorem objOrder_idem {β : Type} (l : List (String × β)) :
    objOrder (objOrder l) = objOrder l := by
  have hA : ∀ p ∈ insSortBy keyLt (l.filter fun p => isArrayIndex p.1),
      isArrayIndex p.1 = true := by
    intro p hp
    have := ((insSortBy_perm keyLt _).mem_iff).mp hp
    exact (List.mem_filter.mp this).2
  have hB : ∀ p ∈ l.filter (fun p => !isArrayIndex p.1),
      isArrayIndex p.1 = false := by
    intro p hp
    have := (List.mem_filter.mp hp).2
    simpa using this
  have hfA : (insSortBy keyLt (l.filter fun p => isArrayIndex p.1)).filter
      (fun p => isArrayIndex p.1) = insSortBy keyLt (l.filter fun p => isArrayIndex p.1) :=
    List.filter_eq_self.mpr hA
  have hfB : (l.filter fun p => !isArrayIndex p.1).filter
      (fun p => isArrayIndex p.1) = [] := by
    rw [List.filter_eq_nil_iff]
    intro p hp
    simp [hB p hp]
  have hgA : (insSortBy keyLt (l.filter fun p => isArrayIndex p.1)).filter
      (fun p => !isArrayIndex p.1) = [] := by
    rw [List.filter_eq_nil_iff]
    intro p hp
    simp [hA p hp]
  have hgB : (l.filter fun p => !isArrayIndex p.1).filter
      (fun p => !isArrayIndex p.1) = l.filter fun p => !isArrayIndex p.1 := by
    refine List.filter_eq_self.mpr ?_
    intro p hp
    simp [hB p hp]
  conv_lhs => rw [objOrder]
  rw [objOrder, List.filter_append, List.filter_append, hfA, hfB, hgA, hgB,
    List.append_nil, List.nil_append,
    insSortBy_eq_self_of_chain' keyLt _ (chain'_insSortBy keyLt keyLt_asym _)]

theorem objOrder_eq_self_of_noIdx {β : Type} (l : List (String × β))
    (h : ∀ p ∈ l, isArrayIndex p.1 = false) : objOrder l = l := by
  have h1 : l.filter (fun p => isArrayIndex p.1) = [] := by
    rw [List.filter_eq_nil_iff]
    intro p hp
    simp [h p hp]
  have h2 : l.filter (fun p => !isArrayIndex p.1) = l := by
    refine List.filter_eq_self.mpr ?_
    intro p hp
    simp [h p hp]
  simp [objOrder, h1, h2, insSortBy]

theorem objOrder_perm {β : Type} (l : List (String × β)) :
    List.Perm (objOrder l) l := by
  have hp := List.filter_append_perm (fun p => isArrayIndex p.1) l
  exact ((insSortBy_perm keyLt _).append_right _).trans hp

theorem objSet_map_fst {β : Type} (l : List (String × β)) (k : String) (v : β) :
    (objSet l k v).map Prod.fst =
      if k ∈ l.map Prod.fst then l.map Prod.fst else l.map Prod.fst ++ [k] := by
  induction l with
  | nil => simp [objSet]
  | cons p rest ih =>
    obtain ⟨ka, va⟩ := p
    by_cases h : ka = k
    · subst h
      simp [objSet]
    · have hne : k ≠ ka := fun hk => h hk.symm
      simp only [objSet, if_neg h, List.map_cons, ih]
      by_cases hmem : k ∈ rest.map Prod.fst
      · rw [if_pos hmem, if_pos (by simp [List.mem_cons, hmem])]
      · rw [if_neg hmem, if_neg (by simp [List.mem_cons, hne, hmem])]
        simp

/-! ## C2: store/get round trip with importance clamping, in both stores -/

/-- C2: for every (content, tags, importance) and every project document
(resp. generated memory id), a store followed by a get of the same key returns
a record whose content and tags equal those given and whose importance is the
given importance clamped into [1,10]; importance 0 is stored as 1 and 15 as
10, in both the TopicStore and the MemoryStore. -/
theorem store_get_roundtrip_clamps (doc : ProjectTopics) (topic content : String)
    (tags : List String) (importance now : Int) (s : MMState) (id proj : String) :
    (∃ m, getTopicMemory (storeTopicMemory doc topic content tags importance now) topic
        = some m ∧
      m.content = content ∧ m.tags = tags ∧ m.importance = clampImportance importance) ∧
    (getMemoryStep (storeMemoryStep s id content tags importance now proj).2 id).1 =
      some { id := id, content := content, tags := tags,
             importance := clampImportance importance, timestamp := now,
             projectContext := proj } ∧
    clampImportance 0 = 1 ∧ clampImportance 15 = 10 ∧
    1 ≤ clampImportance importance ∧ clampImportance importance ≤ 10 := by
  refine ⟨?_, ?_, by decide, by decide,
    le_max_left 1 (min 10 importance),
    max_le (by norm_num) (min_le_left 10 importance)⟩
  · have hget : getTopicMemory (storeTopicMemory doc topic content tags importance now)
        topic = some
          { content := content, tags := tags,
            importance := clampImportance importance,
            timestamp :=
              match objGet doc topic with
              | some old => if old.timestamp = 0 then now else old.timestamp
              | none => now,
            lastModified := now } := by
      unfold getTopicMemory storeTopicMemory
      rw [objGet_objOrder, objGet_objSet_self]
    exact ⟨_, hget, rfl, rfl, rfl⟩
  · unfold getMemoryStep storeMemoryStep
    simp [objGet_objSet_self]

/-! ## C4: update fails with NotFound exactly on a missing topic -/

/-- C4: `update` fails exactly when the topic is absent, and then the stored
document is unchanged; when the topic exists, unspecified fields keep their
previous values, a given importance is clamped into [1,10], `timestamp` is
untouched and `lastModified` is set to the current time. -/
theorem updateTopicMemory_notfound_and_merge (doc : ProjectTopics)
    (topic : String) (content : Option String) (tags : Option (List String))
    (importance : Option Int) (now : Int) :
    (objGet doc topic = none →
      updateTopicMemory doc topic content tags importance now =
        .error ("Topic not found: " ++ topic) ∧
      updateResultDoc doc topic content tags importance now = doc) ∧
    (∀ old, objGet doc topic = some old →
      (∃ doc2, updateTopicMemory doc topic content tags importance now = .ok doc2) ∧
      getTopicMemory (updateResultDoc doc topic content tags importance now) topic =
        some { content := content.getD old.content
               tags := tags.getD old.tags
               importance :=
                 match importance with
                 | some i => clampImportance i
                 | none => old.importance
               timestamp := old.timestamp
               lastModified := now }) := by
  constructor
  · intro h
    constructor
    · unfold updateTopicMemory
      rw [h]
    · unfold updateResultDoc updateTopicMemory
      rw [h]
  · intro old h
    constructor
    · unfold updateTopicMemory
      rw [h]
      exact ⟨_, rfl⟩
    · unfold getTopicMemory updateResultDoc updateTopicMemory
      rw [h]
      rw [objGet_objOrder, objGet_objSet_self]

/-- C4 witness: the theorem applied to a concrete document, on both the
missing-topic side and the existing-topic side. -/
theorem updateTopicMemory_notfound_and_merge_witness :
    (updateTopicMemory [] "t" none none none 9 = .error ("Topic not found: " ++ "t") ∧
      updateResultDoc [] "t" none none none 9 = []) ∧
    getTopicMemory
        (updateResultDoc [("t", ⟨"c", ["x"], 5, 3, 4⟩)] "t" (some "c2") none (some 15) 9) "t" =
      some ⟨"c2", ["x"], 10, 3, 9⟩ := by
  constructor
  · exact (updateTopicMemory_notfound_and_merge [] "t" none none none 9).1 rfl
  · exact ((updateTopicMemory_notfound_and_merge
      [("t", ⟨"c", ["x"], 5, 3, 4⟩)] "t" (some "c2") none (some 15) 9).2
      ⟨"c", ["x"], 5, 3, 4⟩ (by decide)).2

/-! ## C5: store preserves an existing topic's timestamp — corrected: only a
truthy (nonzero) timestamp is preserved, because the source uses
`topics[topic]?.timestamp || now` -/

/-- C5 counterexample: a stored topic whose existing timestamp is `0` does not
keep it — the claim says the original timestamp is preserved whatever it is,
but re-storing the topic at time 7 stamps `timestamp = 7`. -/
theorem storeTopicMemory_zero_timestamp_lost :
    getTopicMemory
        (storeTopicMemory [("t", ⟨"c", [], 5, 0, 1⟩)] "t" "c2" [] 5 7) "t" =
      some ⟨"c2", [], 5, 7, 7⟩ ∧ (7 : Int) ≠ 0 := by
  constructor
  · decide
  · decide

/-- C5 amended: re-storing an existing topic preserves its original timestamp
whenever that timestamp is nonzero (truthy); a zero timestamp, like a missing
topic, is replaced by the current time; `lastModified` is always refreshed. -/
theorem storeTopicMemory_timestamp_behaviour (doc : ProjectTopics)
    (topic content : String) (tags : List String) (importance now : Int) :
    (∀ old, objGet doc topic = some old → old.timestamp ≠ 0 →
      getTopicMemory (storeTopicMemory doc topic content tags importance now) topic =
        some { content := content, tags := tags,
               importance := clampImportance importance,
               timestamp := old.timestamp, lastModified := now }) ∧
    (∀ old, objGet doc topic = some old → old.timestamp = 0 →
      getTopicMemory (storeTopicMemory doc topic content tags importance now) topic =
        some { content := content, tags := tags,
               importance := clampImportance importance,
               timestamp := now, lastModified := now }) ∧
    (objGet doc topic = none →
      getTopicMemory (storeTopicMemory doc topic content tags importance now) topic =
        some { content := content, tags := tags,
               importance := clampImportance importance,
               timestamp := now, lastModified := now }) := by
  refine ⟨?_, ?_, ?_⟩
  · intro old h hts
    unfold getTopicMemory storeTopicMemory
    rw [h, objGet_objOrder, objGet_objSet_self]
    simp [hts]
  · intro old h hts
    unfold getTopicMemory storeTopicMemory
    rw [h, objGet_objOrder, objGet_objSet_self]
    simp [hts]
  · intro h
    unfold getTopicMemory storeTopicMemory
    rw [h, objGet_objOrder, objGet_objSet_self]

/-- C5 amended witness: the three branches at concrete documents. -/
theorem storeTopicMemory_timestamp_behaviour_witness :
    getTopicMemory (storeTopicMemory [("t", ⟨"c", [], 5, 3, 4⟩)] "t" "c2" [] 5 7) "t" =
      some ⟨"c2", [], 5, 3, 7⟩ ∧
    getTopicMemory (storeTopicMemory [] "t" "c" [] 5 7) "t" =
      some ⟨"c", [], 5, 7, 7⟩ := by
  constructor
  · exact (storeTopicMemory_timestamp_behaviour [("t", ⟨"c", [], 5, 3, 4⟩)]
      "t" "c2" [] 5 7).1 ⟨"c", [], 5, 3, 4⟩ (by decide) (by decide)
  · exact (storeTopicMemory_timestamp_behaviour [] "t" "c" [] 5 7).2.2 rfl

/-! ## C8: idempotent, non-overwriting fixed-topic initialization -/

theorem initFixedLoop_preserves (names : List String) (now : Int) :
    ∀ (doc : ProjectTopics) (t : String) (m : TopicMemory),
      objGet doc t = some m → objGet (initFixedLoop names doc now) t = some m := by
  induction names with
  | nil => intro doc t m h; exact h
  | cons n ns ih =>
    intro doc t m h
    simp only [initFixedLoop, List.foldl_cons]
    cases hdn : objGet doc n with
    | some v =>
      exact ih doc t m h
    | none =>
      refine ih _ t m ?_
      have hne : t ≠ n := by
        intro he
        rw [he, hdn] at h
        exact Option.noConfusion h
      rw [objGet_objSet_ne _ _ _ _ hne]
      exact h

theorem initFixedLoop_creates (names : List String) (now : Int) :
    ∀ (doc : ProjectTopics) (t : String), t ∈ names → objGet doc t = none →
      objGet (initFixedLoop names doc now) t = some (fixedTopicRecord t now) := by
  induction names with
  | nil => intro doc t ht; simp at ht
  | cons n ns ih =>
    intro doc t ht h
    simp only [initFixedLoop, List.foldl_cons]
    by_cases hn : t = n
    · subst hn
      rw [h]
      exact initFixedLoop_preserves ns now _ t _ (objGet_objSet_self doc t _)
    · have ht2 : t ∈ ns := by
        cases List.mem_cons.mp ht with
        | inl he => exact absurd he hn
        | inr h2 => exact h2
      cases hdn : objGet doc n with
      | some v =>
        exact ih doc t ht2 h
      | none =>
        refine ih _ t ht2 ?_
        rw [objGet_objSet_ne _ _ _ _ hn]
        exact h

theorem initFixedLoop_nochange (names : List String) (now : Int) :
    ∀ doc : ProjectTopics, (∀ t ∈ names, objGet doc t ≠ none) →
      initFixedLoop names doc now = doc := by
  induction names with
  | nil => intro doc _; rfl
  | cons n ns ih =>
    intro doc h
    simp only [initFixedLoop, List.foldl_cons]
    cases hdn : objGet doc n with
    | some v =>
      exact ih doc fun t ht => h t (List.mem_cons_of_mem n ht)
    | none => exact absurd hdn (h n (List.mem_cons_self n ns))

/-- C8: `initializeFixedTopics` is idempotent and never overwrites — every
fixed topic not already present gets the placeholder record with tags
`[fixed-topic, name]` and importance 5, every topic already present keeps its
record (content and timestamp included), and a second call changes nothing. -/
theorem initializeFixedTopics_idempotent (doc : ProjectTopics) (now now2 : Int) :
    initializeFixedTopics (initializeFixedTopics doc now) now2 =
      initializeFixedTopics doc now ∧
    (∀ t m, objGet doc t = some m →
      getTopicMemory (initializeFixedTopics doc now) t = some m) ∧
    (∀ t, t ∈ FIXED_TOPICS → objGet doc t = none →
      getTopicMemory (initializeFixedTopics doc now) t =
        some (fixedTopicRecord t now)) := by
  have hpres : ∀ t m, objGet doc t = some m →
      getTopicMemory (initializeFixedTopics doc now) t = some m := by
    intro t m h
    unfold getTopicMemory initializeFixedTopics
    rw [objGet_objOrder]
    exact initFixedLoop_preserves FIXED_TOPICS now doc t m h
  have hcre : ∀ t, t ∈ FIXED_TOPICS → objGet doc t = none →
      getTopicMemory (initializeFixedTopics doc now) t =
        some (fixedTopicRecord t now) := by
    intro t ht h
    unfold getTopicMemory initializeFixedTopics
    rw [objGet_objOrder]
    exact initFixedLoop_creates FIXED_TOPICS now doc t ht h
  refine ⟨?_, hpres, hcre⟩
  have hall : ∀ t ∈ FIXED_TOPICS, objGet (initializeFixedTopics doc now) t ≠ none := by
    intro t ht
    cases hdt : objGet doc t with
    | some m =>
      have := hpres t m hdt
      unfold getTopicMemory at this
      rw [this]
      exact fun he => Option.noConfusion he
    | none =>
      have := hcre t ht hdt
      unfold getTopicMemory at this
      rw [this]
      exact fun he => Option.noConfusion he
  conv_lhs => rw [initializeFixedTopics]
  rw [initFixedLoop_nochange FIXED_TOPICS now2 _ hall]
  unfold initializeFixedTopics
  exact objOrder_idem _

/-- C8 witness: a document holding a manually stored `bugs` topic keeps its
content and timestamp through initialization, absent fixed topics get the
placeholder, and a second call changes nothing. -/
theorem initializeFixedTopics_idempotent_witness :
    initializeFixedTopics
        (initializeFixedTopics [("bugs", ⟨"user content", [], 9, 1, 1⟩)] 5) 7 =
      initializeFixedTopics [("bugs", ⟨"user content", [], 9, 1, 1⟩)] 5 ∧
    getTopicMemory
        (initializeFixedTopics [("bugs", ⟨"user content", [], 9, 1, 1⟩)] 5) "bugs" =
      some ⟨"user content", [], 9, 1, 1⟩ ∧
    getTopicMemory
        (initializeFixedTopics [("bugs", ⟨"user content", [], 9, 1, 1⟩)] 5) "summary" =
      some (fixedTopicRecord "summary" 5) := by
  have h := initializeFixedTopics_idempotent
    [("bugs", ⟨"user content", [], 9, 1, 1⟩)] 5 7
  exact ⟨h.1, h.2.1 "bugs" ⟨"user content", [], 9, 1, 1⟩ (by decide),
    h.2.2 "summary" (by decide) (by decide)⟩

/-! ## C7: cleanupOldMemories deletes exactly the old, low-importance memories -/

theorem mem_of_objGet_some {β : Type} (l : List (String × β)) (k : String) (v : β)
    (h : objGet l k = some v) : (k, v) ∈ l := by
  induction l with
  | nil => simp [objGet] at h
  | cons p rest ih =>
    obtain ⟨ka, va⟩ := p
    by_cases hk : ka = k
    · subst hk
      simp only [objGet, if_pos rfl] at h
      cases h
      exact List.mem_cons_self _ _
    · simp only [objGet, if_neg hk] at h
      exact List.mem_cons_of_mem _ (ih h)

theorem eq_of_key_eq_of_nodupKeys {β : Type} (l : List (String × β))
    (hn : (l.map Prod.fst).Nodup) :
    ∀ p q : String × β, p ∈ l → q ∈ l → p.1 = q.1 → p = q := by
  induction l with
  | nil => intro p q hp _ _; simp at hp
  | cons r rest ih =>
    intro p q hp hq he
    rw [List.map_cons, List.nodup_cons] at hn
    cases List.mem_cons.mp hp with
    | inl hp1 =>
      cases List.mem_cons.mp hq with
      | inl hq1 => rw [hp1, hq1]
      | inr hq2 =>
        exfalso
        apply hn.1
        have : q.1 ∈ rest.map Prod.fst := List.mem_map_of_mem Prod.fst hq2
        rw [hp1] at he
        rw [he]
        exact this
    | inr hp2 =>
      cases List.mem_cons.mp hq with
      | inl hq1 =>
        exfalso
        apply hn.1
        have : p.1 ∈ rest.map Prod.fst := List.mem_map_of_mem Prod.fst hp2
        rw [hq1] at he
        rw [← he]
        exact this
      | inr hq2 => exact ih hn.2 p q hp2 hq2 he

theorem cleanupLoop_spec (cutoff : Int) (ms : List Memory) :
    ∀ s : MMState,
      cleanupLoop cutoff ms s =
        (((ms.filter (cleanupDeletes cutoff)).map Memory.id).length,
         { disk := s.disk.filter
             (fun p => !((ms.filter (cleanupDeletes cutoff)).map Memory.id).contains p.1),
           cache := s.cache.filter
             (fun p => !((ms.filter (cleanupDeletes cutoff)).map Memory.id).contains p.1) }) := by
  induction ms with
  | nil =>
    intro s
    have hd : s.disk.filter (fun p => !(([] : List String).contains p.1)) = s.disk :=
      List.filter_eq_self.mpr fun a _ => rfl
    have hc : s.cache.filter (fun p => !(([] : List String).contains p.1)) = s.cache :=
      List.filter_eq_self.mpr fun a _ => rfl
    simp only [cleanupLoop, List.filter_nil, List.map_nil, List.length_nil, hd, hc]
  | cons m rest ih =>
    intro s
    by_cases hdel : cleanupDeletes cutoff m
    · have hfc : (m :: rest).filter (cleanupDeletes cutoff) =
          m :: rest.filter (cleanupDeletes cutoff) := by
        simp [List.filter_cons, hdel]
      simp only [cleanupLoop, if_pos hdel, deleteMemoryStep]
      rw [ih]
      rw [hfc]
      have hpt : ∀ (l : List (String × Memory)),
          (l.filter (fun p => decide (p.1 ≠ m.id))).filter
            (fun p => !(((rest.filter (cleanupDeletes cutoff)).map Memory.id).contains p.1)) =
          l.filter (fun p =>
            !(((m :: rest.filter (cleanupDeletes cutoff)).map Memory.id).contains p.1)) := by
        intro l
        rw [List.filter_filter]
        refine List.filter_congr ?_
        intro p _
        by_cases hpm : p.1 = m.id
        · simp [hpm, List.contains_cons]
        · simp [hpm, List.contains_cons]
      simp only [objErase]
      rw [hpt s.disk, hpt s.cache]
      simp [List.map_cons]
    · have hfc : (m :: rest).filter (cleanupDeletes cutoff) =
          rest.filter (cleanupDeletes cutoff) := by
        simp [List.filter_cons, hdel]
      simp only [cleanupLoop, if_neg hdel]
      rw [ih, hfc]

/-- C7: for every `maxAge` and stored set of memories, `cleanupOldMemories`
deletes exactly the memories with `timestamp < now - maxAge` and importance
strictly below 5, returns the number deleted, and retains every memory of
importance 5 or more regardless of age. -/
theorem cleanupOldMemories_exact (s : MMState) (maxAge now : Int)
    (hkeys : KeysMatch s.disk) (hnodup : (s.disk.map Prod.fst).Nodup) :
    (cleanupOldMemories s maxAge now).1 =
      (s.disk.filter fun p => cleanupDeletes (now - maxAge) p.2).length ∧
    (cleanupOldMemories s maxAge now).2.disk =
      s.disk.filter (fun p => !cleanupDeletes (now - maxAge) p.2) ∧
    (∀ p ∈ s.disk, 5 ≤ p.2.importance →
      p ∈ (cleanupOldMemories s maxAge now).2.disk) := by
  have hpoint : ∀ p ∈ s.disk,
      (((s.disk.map Prod.snd).filter (cleanupDeletes (now - maxAge))).map
        Memory.id).contains p.1 = cleanupDeletes (now - maxAge) p.2 := by
    intro p hp
    by_cases hdel : cleanupDeletes (now - maxAge) p.2
    · rw [hdel]
      have h1 : p.2 ∈ (s.disk.map Prod.snd).filter (cleanupDeletes (now - maxAge)) :=
        List.mem_filter.mpr ⟨List.mem_map_of_mem Prod.snd hp, hdel⟩
      have h2 : p.2.id ∈ ((s.disk.map Prod.snd).filter
          (cleanupDeletes (now - maxAge))).map Memory.id :=
        List.mem_map_of_mem Memory.id h1
      rw [hkeys p hp] at h2
      exact List.elem_iff.mpr h2
    · have hdel2 : cleanupDeletes (now - maxAge) p.2 = false := by
        simpa using hdel
      rw [hdel2]
      by_contra hcon
      have hcon2 : p.1 ∈ ((s.disk.map Prod.snd).filter
          (cleanupDeletes (now - maxAge))).map Memory.id := by
        have := Bool.of_not_eq_false hcon
        exact List.elem_iff.mp this
      obtain ⟨m2, hm2f, hm2id⟩ := List.mem_map.mp hcon2
      obtain ⟨hm2mem, hm2del⟩ := List.mem_filter.mp hm2f
      obtain ⟨q, hq, hqm2⟩ := List.mem_map.mp hm2mem
      have hqk : q.1 = p.1 := by
        rw [← hm2id, ← hqm2]
        exact (hkeys q hq).symm
      have hqp : q = p := eq_of_key_eq_of_nodupKeys s.disk hnodup q p hq hp hqk
      rw [← hqp, hqm2] at hdel2
      rw [hm2del] at hdel2
      exact Bool.noConfusion hdel2
  have hloop := cleanupLoop_spec (now - maxAge) (s.disk.map Prod.snd) s
  have hcnt : (cleanupOldMemories s maxAge now).1 =
      (s.disk.filter fun p => cleanupDeletes (now - maxAge) p.2).length := by
    rw [cleanupOldMemories, hloop]
    simp only [List.length_map, List.filter_map]
    rfl
  have hdisk : (cleanupOldMemories s maxAge now).2.disk =
      s.disk.filter (fun p => !cleanupDeletes (now - maxAge) p.2) := by
    rw [cleanupOldMemories, hloop]
    refine List.filter_congr ?_
    intro p hp
    rw [hpoint p hp]
  refine ⟨hcnt, hdisk, ?_⟩
  intro p hp himp
  rw [hdisk]
  refine List.mem_filter.mpr ⟨hp, ?_⟩
  have : ¬ p.2.importance < 5 := not_lt.mpr himp
  simp [cleanupDeletes, this]

/-- C7 witness: a 40-day-old memory of importance 3 is removed while a
90-day-old memory of importance 7 is retained (times in days for
readability). -/
theorem cleanupOldMemories_exact_witness :
    (cleanupOldMemories
      { disk := [("a", { id := "a", content := "old", tags := [], importance := 3,
                         timestamp := 60, projectContext := "p" }),
                 ("b", { id := "b", content := "keep", tags := [], importance := 7,
                         timestamp := 10, projectContext := "p" })],
        cache := [] } 30 100).1 = 1 ∧
    (cleanupOldMemories
      { disk := [("a", { id := "a", content := "old", tags := [], importance := 3,
                         timestamp := 60, projectContext := "p" }),
                 ("b", { id := "b", content := "keep", tags := [], importance := 7,
                         timestamp := 10, projectContext := "p" })],
        cache := [] } 30 100).2.disk =
      [("b", { id := "b", content := "keep", tags := [], importance := 7,
               timestamp := 10, projectContext := "p" })] := by
  have h := cleanupOldMemories_exact
    { disk := [("a", { id := "a", content := "old", tags := [], importance := 3,
                       timestamp := 60, projectContext := "p" }),
               ("b", { id := "b", content := "keep", tags := [], importance := 7,
                       timestamp := 10, projectContext := "p" })],
      cache := [] } 30 100
    (by intro p hp; fin_cases hp <;> rfl) (by decide)
  refine ⟨?_, ?_⟩
  · rw [h.1]
    decide
  · rw [h.2.1]
    decide

/-! ## C6: the cache is never authoritative — coherence under all operations
and arbitrary evictions -/

theorem mem_objSet {β : Type} (l : List (String × β)) (k : String) (v : β) :
    ∀ p ∈ objSet l k v, p ∈ l ∨ p = (k, v) := by
  induction l with
  | nil =>
    intro p hp
    simp only [objSet, List.mem_singleton] at hp
    exact Or.inr hp
  | cons r rest ih =>
    obtain ⟨ka, va⟩ := r
    intro p hp
    by_cases h : ka = k
    · simp only [objSet, if_pos h] at hp
      cases List.mem_cons.mp hp with
      | inl h1 => exact Or.inr (by rw [h1, h])
      | inr h2 => exact Or.inl (List.mem_cons_of_mem _ h2)
    · simp only [objSet, if_neg h] at hp
      cases List.mem_cons.mp hp with
      | inl h1 => exact Or.inl (by rw [h1]; exact List.mem_cons_self _ _)
      | inr h2 =>
        cases ih p h2 with
        | inl h3 => exact Or.inl (List.mem_cons_of_mem _ h3)
        | inr h3 => exact Or.inr h3

theorem nodupKeys_objSet {β : Type} (l : List (String × β)) (k : String) (v : β)
    (hn : (l.map Prod.fst).Nodup) : ((objSet l k v).map Prod.fst).Nodup := by
  rw [objSet_map_fst]
  by_cases h : k ∈ l.map Prod.fst
  · rw [if_pos h]; exact hn
  · rw [if_neg h]
    rw [List.nodup_append]
    refine ⟨hn, List.nodup_singleton k, ?_⟩
    intro a ha hb
    simp only [List.mem_singleton] at hb
    subst hb
    exact h ha

theorem nodupKeys_filter {β : Type} (pr : String × β → Bool)
    (l : List (String × β)) (hn : (l.map Prod.fst).Nodup) :
    ((l.filter pr).map Prod.fst).Nodup :=
  List.Nodup.sublist (List.Sublist.map Prod.fst (List.filter_sublist l)) hn

theorem objGet_eq_some_of_mem_nodup {β : Type} (l : List (String × β))
    (hn : (l.map Prod.fst).Nodup) (k : String) (v : β) (hm : (k, v) ∈ l) :
    objGet l k = some v := by
  induction l with
  | nil => simp at hm
  | cons r rest ih =>
    obtain ⟨ka, va⟩ := r
    rw [List.map_cons, List.nodup_cons] at hn
    cases List.mem_cons.mp hm with
    | inl h1 =>
      injection h1.symm with h2 h3
      subst h2
      subst h3
      simp [objGet]
    | inr h2 =>
      have hmap : (k, v).1 ∈ rest.map Prod.fst := List.mem_map_of_mem Prod.fst h2
      have hk : ka ≠ k := by
        intro he
        apply hn.1
        rw [he]
        exact hmap
      simp only [objGet, if_neg hk]
      exact ih hn.2 h2

theorem keysMatch_objSet (l : List (String × Memory)) (k : String) (v : Memory)
    (hl : KeysMatch l) (hv : v.id = k) : KeysMatch (objSet l k v) := by
  intro p hp
  cases mem_objSet l k v p hp with
  | inl h => exact hl p h
  | inr h => rw [h]; exact hv

theorem keysMatch_filter (pr : String × Memory → Bool)
    (l : List (String × Memory)) (hl : KeysMatch l) : KeysMatch (l.filter pr) :=
  fun p hp => hl p (List.mem_filter.mp hp).1

/-- Well-formedness carried by the reachability induction: disk and cache
entries are keyed by their record ids, and cache keys are unique. -/
def StateWF (s : MMState) : Prop :=
  KeysMatch s.disk ∧ KeysMatch s.cache ∧ (s.cache.map Prod.fst).Nodup

theorem reachMM_invariant (s : MMState) (h : ReachMM s) :
    StateWF s ∧ CacheCoherent s := by
  induction h with
  | init d0 hd =>
    refine ⟨⟨hd, ?_, ?_⟩, ?_⟩
    · intro p hp; simp at hp
    · simp
    · intro id m hm; simp [objGet] at hm
  | step s op hreach ih =>
    obtain ⟨⟨hdk, hck, hcn⟩, hco⟩ := ih
    cases op with
    | store id content tags importance now project =>
      simp only [applyOp, storeMemoryStep]
      refine ⟨⟨keysMatch_objSet _ _ _ hdk rfl, keysMatch_objSet _ _ _ hck rfl,
        nodupKeys_objSet _ _ _ hcn⟩, ?_⟩
      intro id2 m2 hm2
      by_cases he : id2 = id
      · subst he
        rw [objGet_objSet_self] at hm2
        cases hm2
        exact objGet_objSet_self _ _ _
      · rw [objGet_objSet_ne _ _ _ _ he] at hm2
        rw [objGet_objSet_ne _ _ _ _ he]
        exact hco id2 m2 hm2
    | get id =>
      simp only [applyOp, getMemoryStep]
      cases hcg : objGet s.cache id with
      | some m => exact ⟨⟨hdk, hck, hcn⟩, hco⟩
      | none =>
        cases hdg : objGet s.disk id with
        | some m =>
          have hmid : m.id = id := hdk (id, m) (mem_of_objGet_some _ _ _ hdg)
          refine ⟨⟨hdk, keysMatch_objSet _ _ _ hck hmid,
            nodupKeys_objSet _ _ _ hcn⟩, ?_⟩
          intro id2 m2 hm2
          by_cases he : id2 = id
          · subst he
            rw [objGet_objSet_self] at hm2
            cases hm2
            exact hdg
          · rw [objGet_objSet_ne _ _ _ _ he] at hm2
            exact hco id2 m2 hm2
        | none => exact ⟨⟨hdk, hck, hcn⟩, hco⟩
    | update id content tags importance =>
      cases hcg : objGet s.cache id with
      | some m =>
        have hmid : m.id = id := hck (id, m) (mem_of_objGet_some _ _ _ hcg)
        have hxid : (mergeMemory m content tags importance).id = id := hmid
        have happ : applyOp s (.update id content tags importance) =
            { disk := objSet s.disk id (mergeMemory m content tags importance),
              cache := objSet s.cache id (mergeMemory m content tags importance) } := by
          simp only [applyOp, updateMemoryStep, getMemoryStep, hcg]
          rw [hxid]
        rw [happ]
        refine ⟨⟨keysMatch_objSet _ _ _ hdk hxid, keysMatch_objSet _ _ _ hck hxid,
          nodupKeys_objSet _ _ _ hcn⟩, ?_⟩
        intro id2 m2 hm2
        by_cases he : id2 = id
        · subst he
          rw [objGet_objSet_self] at hm2
          cases hm2
          exact objGet_objSet_self _ _ _
        · rw [objGet_objSet_ne _ _ _ _ he] at hm2
          rw [objGet_objSet_ne _ _ _ _ he]
          exact hco id2 m2 hm2
      | none =>
        cases hdg : objGet s.disk id with
        | some m =>
          have hmid : m.id = id := hdk (id, m) (mem_of_objGet_some _ _ _ hdg)
          have hxid : (mergeMemory m content tags importance).id = id := hmid
          have happ : applyOp s (.update id content tags importance) =
              { disk := objSet s.disk id (mergeMemory m content tags importance),
                cache := objSet (objSet s.cache id m) id
                  (mergeMemory m content tags importance) } := by
            simp only [applyOp, updateMemoryStep, getMemoryStep, hcg, hdg]
            rw [hxid]
          rw [happ]
          refine ⟨⟨keysMatch_objSet _ _ _ hdk hxid,
            keysMatch_objSet _ _ _ (keysMatch_objSet _ _ _ hck hmid) hxid,
            nodupKeys_objSet _ _ _ (nodupKeys_objSet _ _ _ hcn)⟩, ?_⟩
          intro id2 m2 hm2
          by_cases he : id2 = id
          · subst he
            rw [objGet_objSet_self] at hm2
            cases hm2
            exact objGet_objSet_self _ _ _
          · rw [objGet_objSet_ne _ _ _ _ he] at hm2
            rw [objGet_objSet_ne _ _ _ _ he] at hm2
            rw [objGet_objSet_ne _ _ _ _ he]
            exact hco id2 m2 hm2
        | none =>
          have happ : applyOp s (.update id content tags importance) = s := by
            simp only [applyOp, updateMemoryStep, getMemoryStep, hcg, hdg]
          rw [happ]
          exact ⟨⟨hdk, hck, hcn⟩, hco⟩
    | delete id =>
      simp only [applyOp, deleteMemoryStep]
      refine ⟨⟨fun p hp => hdk p (List.mem_filter.mp hp).1,
        fun p hp => hck p (List.mem_filter.mp hp).1,
        nodupKeys_filter _ _ hcn⟩, ?_⟩
      intro id2 m2 hm2
      by_cases he : id2 = id
      · subst he
        rw [objGet_objErase_self] at hm2
        exact Option.noConfusion hm2
      · rw [objGet_objErase_ne _ _ _ he] at hm2
        rw [objGet_objErase_ne _ _ _ he]
        exact hco id2 m2 hm2
    | evict ids =>
      simp only [applyOp]
      refine ⟨⟨hdk, keysMatch_filter _ _ hck, nodupKeys_filter _ _ hcn⟩, ?_⟩
      intro id2 m2 hm2
      have hmem : (id2, m2) ∈ s.cache :=
        (List.mem_filter.mp (mem_of_objGet_some _ _ _ hm2)).1
      exact hco id2 m2 (objGet_eq_some_of_mem_nodup s.cache hcn id2 m2 hmem)

/-- C6: in every state reachable by store/get/update/delete interleaved with
arbitrary cache evictions, every cache entry equals the on-disk record for its
id; consequently `getMemory` returns exactly the on-disk record, whether or
not the entry was evicted — eviction is never observable as data loss. -/
theorem cache_eviction_unobservable (s : MMState) (h : ReachMM s) :
    CacheCoherent s ∧
    (∀ id, (getMemoryStep s id).1 = objGet s.disk id) ∧
    (∀ ids id,
      (getMemoryStep (applyOp s (.evict ids)) id).1 = (getMemoryStep s id).1) := by
  have hinv := reachMM_invariant s h
  obtain ⟨_, hco⟩ := hinv
  have hget : ∀ s2 : MMState, CacheCoherent s2 →
      ∀ id, (getMemoryStep s2 id).1 = objGet s2.disk id := by
    intro s2 hco2 id
    cases hcg : objGet s2.cache id with
    | some m =>
      simp only [getMemoryStep, hcg]
      exact (hco2 id m hcg).symm
    | none =>
      simp only [getMemoryStep, hcg]
      cases hdg : objGet s2.disk id <;> simp [hdg]
  refine ⟨hco, hget s hco, ?_⟩
  intro ids id
  have h2 : ReachMM (applyOp s (.evict ids)) := ReachMM.step s (.evict ids) h
  rw [hget _ (reachMM_invariant _ h2).2 id, hget s hco id]
  rfl

/-- C6 witness: the theorem applied to the concrete reachable state after one
store on a fresh manager. -/
theorem cache_eviction_unobservable_witness :
    CacheCoherent (applyOp { disk := [], cache := [] }
      (MMOp.store "a" "hello" [] 7 100 "proj")) ∧
    (getMemoryStep (applyOp { disk := [], cache := [] }
      (MMOp.store "a" "hello" [] 7 100 "proj")) "a").1 =
      objGet (applyOp { disk := [], cache := [] }
        (MMOp.store "a" "hello" [] 7 100 "proj")).disk "a" := by
  have hr : ReachMM (applyOp { disk := [], cache := [] }
      (MMOp.store "a" "hello" [] 7 100 "proj")) :=
    ReachMM.step _ _ (ReachMM.init [] (by intro p hp; simp at hp))
  have h := cache_eviction_unobservable _ hr
  exact ⟨h.1, h.2.1 "a"⟩

/-! ## C9: listTopics and insertion order — corrected: ECMAScript iterates
array-index keys first, so only non-index topic names keep insertion order -/

/-- One `storeTopicMemory` call. -/
structure StoreOp where
  topic : String
  content : String
  tags : List String
  importance : Int
  now : Int

/-- A sequence of store operations applied to a project document. -/
def applyStores (ops : List StoreOp) (doc : ProjectTopics) : ProjectTopics :=
  ops.foldl
    (fun d o => storeTopicMemory d o.topic o.content o.tags o.importance o.now) doc

theorem applyStores_cons (o : StoreOp) (os : List StoreOp) (doc : ProjectTopics) :
    applyStores (o :: os) doc =
      applyStores os (storeTopicMemory doc o.topic o.content o.tags o.importance o.now) :=
  rfl

/-- Append a name unless already present (first occurrence wins). -/
def insertKeyOnce (ks : List String) (k : String) : List String :=
  if k ∈ ks then ks else ks ++ [k]

/-- The order in which a list of names was first inserted. -/
def firstInsertionOrder (names : List String) : List String :=
  names.foldl insertKeyOnce []

theorem storeTopicMemory_keys (doc : ProjectTopics) (topic content : String)
    (tags : List String) (importance now : Int)
    (hdoc : ∀ p ∈ doc, isArrayIndex p.1 = false)
    (ht : isArrayIndex topic = false) :
    (storeTopicMemory doc topic content tags importance now).map Prod.fst =
      insertKeyOnce (doc.map Prod.fst) topic ∧
    (∀ p ∈ storeTopicMemory doc topic content tags importance now,
      isArrayIndex p.1 = false) := by
  have key : ∀ v : TopicMemory,
      (objOrder (objSet doc topic v)).map Prod.fst =
        insertKeyOnce (doc.map Prod.fst) topic ∧
      (∀ p ∈ objOrder (objSet doc topic v), isArrayIndex p.1 = false) := by
    intro v
    have hset : ∀ p ∈ objSet doc topic v, isArrayIndex p.1 = false := by
      intro p hp
      cases mem_objSet _ _ _ p hp with
      | inl h => exact hdoc p h
      | inr h => rw [h]; exact ht
    rw [objOrder_eq_self_of_noIdx _ hset]
    refine ⟨?_, hset⟩
    rw [objSet_map_fst]
    rfl
  exact key _

theorem applyStores_keys (ops : List StoreOp) :
    ∀ doc : ProjectTopics,
      (∀ o ∈ ops, isArrayIndex o.topic = false) →
      (∀ p ∈ doc, isArrayIndex p.1 = false) →
      (applyStores ops doc).map Prod.fst =
        ops.foldl (fun ks o => insertKeyOnce ks o.topic) (doc.map Prod.fst) ∧
      (∀ p ∈ applyStores ops doc, isArrayIndex p.1 = false) := by
  induction ops with
  | nil => intro doc _ hdoc; exact ⟨rfl, hdoc⟩
  | cons o os ih =>
    intro doc hops hdoc
    have hot : isArrayIndex o.topic = false := hops o (List.mem_cons_self _ _)
    have hstep := storeTopicMemory_keys doc o.topic o.content o.tags
      o.importance o.now hdoc hot
    have hrec := ih (storeTopicMemory doc o.topic o.content o.tags o.importance o.now)
      (fun o2 ho2 => hops o2 (List.mem_cons_of_mem _ ho2)) hstep.2
    constructor
    · rw [applyStores_cons, hrec.1, hstep.1, List.foldl_cons]
    · rw [applyStores_cons]
      exact hrec.2

/-- C9 counterexample: storing topic `"b"` and then topic `"0"` lists
`["0", "b"]` — the array-index key `"0"` is iterated first by
`Object.keys`, not in insertion order `["b", "0"]`. -/
theorem listTopics_not_insertion_order :
    listTopics (applyStores
      [{ topic := "b", content := "x", tags := [], importance := 5, now := 1 },
       { topic := "0", content := "y", tags := [], importance := 5, now := 2 }] []) =
      ["0", "b"] ∧
    (["0", "b"] : List String) ≠ ["b", "0"] := by
  constructor
  · decide
  · decide

/-- C9 amended: for every sequence of stores in which no topic name is an
ECMAScript array-index string (a canonical numeral below 2^32 - 1),
`listTopics` returns the topic names in first-insertion order; topics with
array-index names are instead listed first, in ascending numeric order. -/
theorem listTopics_insertion_order_nonindex (ops : List StoreOp)
    (hops : ∀ o ∈ ops, isArrayIndex o.topic = false) :
    listTopics (applyStores ops []) = firstInsertionOrder (ops.map StoreOp.topic) := by
  have h := applyStores_keys ops [] hops (by intro p hp; simp at hp)
  unfold listTopics
  rw [objOrder_eq_self_of_noIdx _ h.2, h.1]
  simp [firstInsertionOrder, List.foldl_map]

/-- C9 amended witness: two stores with plain names list in insertion order. -/
theorem listTopics_insertion_order_nonindex_witness :
    listTopics (applyStores
      [{ topic := "b", content := "x", tags := [], importance := 5, now := 1 },
       { topic := "a", content := "y", tags := [], importance := 5, now := 2 }] []) =
      ["b", "a"] := by
  have h := listTopics_insertion_order_nonindex
    [{ topic := "b", content := "x", tags := [], importance := 5, now := 1 },
     { topic := "a", content := "y", tags := [], importance := 5, now := 2 }]
    (by intro o ho; fin_cases ho <;> decide)
  rw [h]
  decide

/-! ## C10: the empty query matches every stored topic -/

theorem isInfixL_nil (hay : List Char) : isInfixL [] hay = true := by
  cases hay <;> simp [isInfixL, isPrefixL]

theorem includes_empty (hay : String) : includes hay "" = true := by
  have h : ("" : String).toList = [] := rfl
  rw [includes, h]
  exact isInfixL_nil hay.toList

theorem scoreTopic_empty_query (name : String) (m : TopicMemory) :
    scoreTopic (toLowerStr "") name m = if m.tags.isEmpty then 4 else 6 := by
  have he : toLowerStr "" = "" := rfl
  rw [he]
  unfold scoreTopic
  rw [if_pos (includes_empty (toLowerStr m.content)),
    if_pos (includes_empty (toLowerStr name))]
  cases htags : m.tags with
  | nil => simp
  | cons t ts => simp [includes_empty]

theorem filterMap_search_all (ql : String) (l : List (String × TopicMemory))
    (h : ∀ p ∈ l, 0 < scoreTopic ql p.1 p.2) :
    (l.filterMap fun p =>
      let s := scoreTopic ql p.1 p.2
      if 0 < s then some (SearchResult.mk p.1 p.2 s) else none) =
    l.map (fun p => SearchResult.mk p.1 p.2 (scoreTopic ql p.1 p.2)) := by
  induction l with
  | nil => rfl
  | cons p ps ih =>
    have hp := h p (List.mem_cons_self _ _)
    simp only [List.filterMap_cons, List.map_cons, if_pos hp]
    rw [ih fun q hq => h q (List.mem_cons_of_mem _ hq)]

/-- C10: for a document with at least one topic and a limit at least the
number of stored topics, searching with the empty query returns one result
entry per stored topic — the empty string is a substring of every content and
every topic name — each with score 4 when the topic has no tags (3 content +
1 name) and 6 otherwise (+2 tag), hence always at least 4. -/
theorem search_empty_query_matches_all (doc : ProjectTopics) (limit : Nat)
    (_hne : doc ≠ []) (hlim : doc.length ≤ limit) :
    (searchTopicMemories doc "" limit).length = doc.length ∧
    (∀ r ∈ searchTopicMemories doc "" limit,
      r.score = (if r.memory.tags.isEmpty then 4 else 6) ∧ 4 ≤ r.score) ∧
    List.Perm ((searchTopicMemories doc "" limit).map SearchResult.topic)
      (doc.map Prod.fst) := by
  have hpos : ∀ p ∈ objOrder doc, 0 < scoreTopic (toLowerStr "") p.1 p.2 := by
    intro p _
    rw [scoreTopic_empty_query]
    split <;> norm_num
  have hres : searchTopicMemories doc "" limit =
      (insSortBy resultLt ((objOrder doc).map
        (fun p => SearchResult.mk p.1 p.2 (scoreTopic (toLowerStr "") p.1 p.2)))).take
        limit := by
    unfold searchTopicMemories
    dsimp only
    rw [filterMap_search_all _ _ hpos]
  have hperm1 : List.Perm
      (insSortBy resultLt ((objOrder doc).map
        (fun p => SearchResult.mk p.1 p.2 (scoreTopic (toLowerStr "") p.1 p.2))))
      ((objOrder doc).map
        (fun p => SearchResult.mk p.1 p.2 (scoreTopic (toLowerStr "") p.1 p.2))) :=
    insSortBy_perm _ _
  have hlen : (insSortBy resultLt ((objOrder doc).map
      (fun p => SearchResult.mk p.1 p.2 (scoreTopic (toLowerStr "") p.1 p.2)))).length =
      doc.length := by
    rw [hperm1.length_eq, List.length_map, (objOrder_perm doc).length_eq]
  have htake : (insSortBy resultLt ((objOrder doc).map
      (fun p => SearchResult.mk p.1 p.2 (scoreTopic (toLowerStr "") p.1 p.2)))).take
      limit =
      insSortBy resultLt ((objOrder doc).map
        (fun p => SearchResult.mk p.1 p.2 (scoreTopic (toLowerStr "") p.1 p.2))) :=
    List.take_of_length_le (by rw [hlen]; exact hlim)
  refine ⟨?_, ?_, ?_⟩
  · rw [hres, htake, hlen]
  · intro r hr
    rw [hres, htake] at hr
    have hr2 := hperm1.mem_iff.mp hr
    obtain ⟨p, _, hpr⟩ := List.mem_map.mp hr2
    have hsc : r.score = if r.memory.tags.isEmpty then 4 else 6 := by
      rw [← hpr, scoreTopic_empty_query]
    refine ⟨hsc, ?_⟩
    rw [hsc]
    split <;> norm_num
  · rw [hres, htake]
    have h2 := hperm1.map SearchResult.topic
    refine h2.trans ?_
    rw [List.map_map]
    have h3 : ((fun r => r.topic) ∘
        (fun p : String × TopicMemory =>
          SearchResult.mk p.1 p.2 (scoreTopic (toLowerStr "") p.1 p.2))) =
        Prod.fst := rfl
    rw [h3]
    exact (objOrder_perm doc).map Prod.fst

/-- C10 witness: a two-topic document searched with the empty query. -/
theorem search_empty_query_matches_all_witness :
    (searchTopicMemories
      [("a", ⟨"c1", [], 5, 1, 1⟩), ("b", ⟨"c2", ["t"], 7, 2, 2⟩)] "" 10).length = 2 ∧
    List.Perm ((searchTopicMemories
      [("a", ⟨"c1", [], 5, 1, 1⟩), ("b", ⟨"c2", ["t"], 7, 2, 2⟩)] "" 10).map
        SearchResult.topic) ["a", "b"] := by
  have h := search_empty_query_matches_all
    [("a", ⟨"c1", [], 5, 1, 1⟩), ("b", ⟨"c2", ["t"], 7, 2, 2⟩)] 10
    (by decide) (by decide)
  exact ⟨h.1, h.2.2⟩

/-! ## C1: the search pipeline equals the specified scoring/ordering/limit -/

theorem le_fst_of_mem_enumFrom {α : Type} (n : Nat) (l : List α) :
    ∀ b ∈ List.enumFrom n l, n ≤ b.1 := by
  induction l generalizing n with
  | nil => intro b hb; simp at hb
  | cons x xs ih =>
    intro b hb
    rw [List.enumFrom_cons] at hb
    cases List.mem_cons.mp hb with
    | inl h => rw [h]
    | inr h => exact Nat.le_of_succ_le (ih (n + 1) b h)

theorem pairwise_fst_lt_enumFrom {α : Type} (n : Nat) (l : List α) :
    List.Pairwise (fun a b => a.1 < b.1) (List.enumFrom n l) := by
  induction l generalizing n with
  | nil => simp
  | cons x xs ih =>
    rw [List.enumFrom_cons]
    refine List.Pairwise.cons ?_ (ih (n + 1))
    intro b hb
    exact Nat.lt_of_succ_le (le_fst_of_mem_enumFrom (n + 1) xs b hb)

theorem code_filter_eq_spec_filter (ql : String) :
    ∀ (l : List (String × TopicMemory)) (n : Nat),
      (l.filterMap fun p =>
        let s := scoreTopic ql p.1 p.2
        if 0 < s then some (SearchResult.mk p.1 p.2 s) else none) =
      (((List.enumFrom n l).map
          (fun q => (q.1, SearchResult.mk q.2.1 q.2.2 (scoreTopic ql q.2.1 q.2.2)))).filter
        (fun q => decide (q.2.score ≠ 0))).map Prod.snd := by
  intro l
  induction l with
  | nil => intro n; rfl
  | cons p ps ih =>
    intro n
    rw [List.enumFrom_cons, List.map_cons, List.filter_cons, List.filterMap_cons]
    by_cases hs : scoreTopic ql p.1 p.2 = 0
    · rw [hs]
      simp only [decide_eq_true_eq]
      rw [if_neg (by simp), if_neg (by simp [hs])]
      exact ih (n + 1)
    · have hpos : 0 < scoreTopic ql p.1 p.2 := Nat.pos_of_ne_zero hs
      simp only [decide_eq_true_eq]
      rw [if_pos hpos, if_pos hs, List.map_cons, ih (n + 1)]

theorem insertOrd_spec_commute (x : Nat × SearchResult) :
    ∀ m : List (Nat × SearchResult), (∀ y ∈ m, x.1 < y.1) →
      (insertOrd specResultLt x m).map Prod.snd =
        insertOrd resultLt x.2 (m.map Prod.snd) := by
  intro m
  induction m with
  | nil => intro _; rfl
  | cons y ys ih =>
    intro hx
    have hyx : specResultLt y x = resultLt y.2 x.2 := by
      have hlt : x.1 < y.1 := hx y (List.mem_cons_self _ _)
      have hnot : decide (y.1 < x.1) = false := by
        simp
        omega
      unfold specResultLt resultLt
      rw [hnot]
      simp
    simp only [List.map_cons, insertOrd]
    rw [hyx]
    by_cases h : resultLt y.2 x.2 = true
    · rw [if_pos h, if_pos h, List.map_cons]
      rw [ih fun z hz => hx z (List.mem_cons_of_mem _ hz)]
    · rw [if_neg (by simpa using h), if_neg (by simpa using h)]
      simp

theorem insSort_spec_commute :
    ∀ l : List (Nat × SearchResult), List.Pairwise (fun a b => a.1 < b.1) l →
      (insSortBy specResultLt l).map Prod.snd =
        insSortBy resultLt (l.map Prod.snd) := by
  intro l
  induction l with
  | nil => intro _; rfl
  | cons x xs ih =>
    intro hp
    simp only [List.map_cons, insSortBy]
    rw [insertOrd_spec_commute x _ ?hmem]
    case hmem =>
      intro y hy
      have hy2 := (insSortBy_perm specResultLt xs).mem_iff.mp hy
      exact (List.pairwise_cons.mp hp).1 y hy2
    rw [ih (List.pairwise_cons.mp hp).2]

/-- C1: for every stored project document (a document as `JSON.stringify`
writes it, i.e. a fixed point of `objOrder`), query and limit, the search of
the source equals the specified search: case-insensitive substring scoring
(+3 content, +2 any tag, +1 topic name), zero scores excluded, descending
score then descending importance, remaining ties stable in stored order,
truncated to the limit. -/
theorem searchTopicMemories_eq_spec (doc : ProjectTopics) (query : String)
    (limit : Nat) (hdoc : objOrder doc = doc) :
    searchTopicMemories doc query limit = searchSpec doc query limit := by
  unfold searchTopicMemories searchSpec
  dsimp only
  rw [hdoc]
  rw [code_filter_eq_spec_filter (toLowerStr query) doc 0]
  have hpw : List.Pairwise (fun a b => a.1 < b.1)
      (((List.enumFrom 0 doc).map
        (fun q => (q.1, SearchResult.mk q.2.1 q.2.2
          (scoreTopic (toLowerStr query) q.2.1 q.2.2)))).filter
        (fun q => decide (q.2.score ≠ 0))) := by
    refine List.Pairwise.filter _ ?_
    rw [List.pairwise_map]
    exact pairwise_fst_lt_enumFrom 0 doc
  rw [← insSort_spec_commute _ hpw]
  rfl

/-- C1 witness: the spec scenario — a CPF-content topic found through a
content match, on a stored (objOrder-normalized) document. -/
theorem searchTopicMemories_eq_spec_witness :
    searchTopicMemories
        [("bugs", ⟨"CPF validation rejects accents", ["checkout"], 9, 1, 1⟩)]
        "CPF" 10 =
      searchSpec
        [("bugs", ⟨"CPF validation rejects accents", ["checkout"], 9, 1, 1⟩)]
        "CPF" 10 := by
  exact searchTopicMemories_eq_spec
    [("bugs", ⟨"CPF validation rejects accents", ["checkout"], 9, 1, 1⟩)]
    "CPF" 10 (by decide)

/-! ## C3: fault isolation of the detection cascade — corrected: total
strategy failure yields method "Fallback"; "Error Fallback" only when an
error escapes the cascade glue -/

/-- A strategy body outcome that contributes no candidate: either its body
threw (recovered to a null name by its own catch) or it returned a candidate
that fails the `name && isValidProjectName(name)` guard. -/
def yieldsNoCandidate (r : Except Unit Cand) : Prop :=
  match r with
  | .error _ => True
  | .ok c => checkCand c = none

theorem recover_checkCand_none (r : Except Unit Cand) (src : String)
    (h : yieldsNoCandidate r) : checkCand (recoverStrat r src) = none := by
  cases r with
  | error e => rfl
  | ok c => exact h

theorem extraNameFilter_checkCand_none (c : Cand) (h : checkCand c = none) :
    checkCand (extraNameFilter c) = none := by
  cases hc : c.name with
  | none =>
    have he : extraNameFilter c = c := by
      simp only [extraNameFilter, hc]
    rw [he]
    exact h
  | some n =>
    simp only [extraNameFilter, hc]
    by_cases hn : (n = "microsoft-vs-code" || n = "andre" || n = "user") = true
    · rw [if_pos hn]
      rfl
    · rw [if_neg hn]
      exact h

/-- An environment in which every strategy body throws, the working directory
is the filesystem root, and no directory shows project indicators. -/
def envAllFail : DetectEnv :=
  { advanced := .error (), userCfg := .error (), activeWs := .error ()
    pkg := .error (), vsCfg := .error (), npx := .error ()
    enhanced := .error (), wsTrad := .error (), patterns := .error ()
    viaCmds := .error (), settings := .error ()
    cwd := .ok "/", homedir := "/home/u", hasInd := fun _ => false }

/-- C3 counterexample: when every strategy fails (throws) and the directory
basename is invalid, the cascade returns method `"Fallback"` (from the final
sanitized-basename fallback), not the claimed `"Error Fallback"`. -/
theorem detect_total_failure_not_error_fallback :
    detectProjectNameWithSource envAllFail =
      { name := "unknown-project", method := "Fallback",
        source := "directory-basename-fallback" } ∧
    ({ name := "unknown-project", method := "Fallback",
       source := "directory-basename-fallback" } : Ident).method ≠ "Error Fallback" := by
  constructor
  · decide
  · decide

/-- C3 amended: detection never throws — the outer catch maps any escaped
error to the fixed `Error Fallback` identity; an error inside any single
strategy is recovered to a no-candidate outcome and the cascade proceeds
identically; when every strategy yields no valid candidate and the working
directory is readable, the result has method `"Fallback"`, with name the
sanitized directory basename when minimally valid and `"unknown-project"`
otherwise; the `Error Fallback` identity arises when an error escapes the
cascade glue itself (reading the working directory throws). -/
theorem detect_cascade_amended (env : DetectEnv) :
    (detectCore env = .error () → detectProjectNameWithSource env = errorFallbackIdent) ∧
    (detectProjectNameWithSource { env with advanced := .error () } =
      detectProjectNameWithSource
        { env with advanced := .ok ⟨none, "advanced-detection-error"⟩ } ∧
     detectProjectNameWithSource { env with userCfg := .error () } =
      detectProjectNameWithSource
        { env with userCfg := .ok ⟨none, "user-config-error"⟩ } ∧
     detectProjectNameWithSource { env with activeWs := .error () } =
      detectProjectNameWithSource
        { env with activeWs := .ok ⟨none, "active-workspace-detection-error"⟩ } ∧
     detectProjectNameWithSource { env with pkg := .error () } =
      detectProjectNameWithSource
        { env with pkg := .ok ⟨none, "package.json read error"⟩ } ∧
     detectProjectNameWithSource { env with vsCfg := .error () } =
      detectProjectNameWithSource
        { env with vsCfg := .ok ⟨none, "vscode-config-error"⟩ } ∧
     detectProjectNameWithSource { env with npx := .error () } =
      detectProjectNameWithSource
        { env with npx := .ok ⟨none, "parent-detection-error"⟩ } ∧
     detectProjectNameWithSource { env with enhanced := .error () } =
      detectProjectNameWithSource
        { env with enhanced := .ok ⟨none, "enhanced-detection-error"⟩ } ∧
     detectProjectNameWithSource { env with wsTrad := .error () } =
      detectProjectNameWithSource
        { env with wsTrad := .ok ⟨none, "detection-error"⟩ } ∧
     detectProjectNameWithSource { env with patterns := .error () } =
      detectProjectNameWithSource
        { env with patterns := .ok ⟨none, "pattern-detection-error"⟩ } ∧
     detectProjectNameWithSource { env with viaCmds := .error () } =
      detectProjectNameWithSource
        { env with viaCmds := .ok ⟨none, "command-detection-error"⟩ } ∧
     detectProjectNameWithSource { env with settings := .error () } =
      detectProjectNameWithSource
        { env with settings := .ok ⟨none, "vs-code-settings-error"⟩ }) ∧
    (∀ currentDir : String,
      yieldsNoCandidate env.advanced → yieldsNoCandidate env.userCfg →
      yieldsNoCandidate env.activeWs → yieldsNoCandidate env.pkg →
      yieldsNoCandidate env.vsCfg → yieldsNoCandidate env.npx →
      yieldsNoCandidate env.enhanced → yieldsNoCandidate env.wsTrad →
      yieldsNoCandidate env.patterns → yieldsNoCandidate env.viaCmds →
      yieldsNoCandidate env.settings →
      env.cwd = .ok currentDir →
      (isValidProjectName (basename currentDir) &&
        decide (currentDir ≠ env.homedir) &&
        !isSystemOrVSCodePath currentDir && env.hasInd currentDir) = false →
      detectProjectNameWithSource env =
        { name := sanitizeProjectName
            (if basename currentDir ≠ "" && isValidProjectName (basename currentDir)
             then basename currentDir else "unknown-project"),
          method := "Fallback", source := "directory-basename-fallback" }) ∧
    (yieldsNoCandidate env.advanced → yieldsNoCandidate env.userCfg →
      yieldsNoCandidate env.activeWs → yieldsNoCandidate env.pkg →
      env.cwd = .error () →
      detectProjectNameWithSource env = errorFallbackIdent) := by
  refine ⟨?_, ⟨rfl, rfl, rfl, rfl, rfl, rfl, rfl, rfl, rfl, rfl, rfl⟩, ?_, ?_⟩
  · intro h
    unfold detectProjectNameWithSource
    rw [h]
  · intro currentDir h1 h2 h3 h4 h5 h6 h7 h8 h9 h10 h11 hcwd hdir
    have c1 := recover_checkCand_none env.advanced "advanced-detection-error" h1
    have c2 := recover_checkCand_none env.userCfg "user-config-error" h2
    have c3 := recover_checkCand_none env.activeWs "active-workspace-detection-error" h3
    have c4 := recover_checkCand_none env.pkg "package.json read error" h4
    have c5 := recover_checkCand_none env.vsCfg "vscode-config-error" h5
    have c6 := recover_checkCand_none env.npx "parent-detection-error" h6
    have c7 := extraNameFilter_checkCand_none _
      (recover_checkCand_none env.enhanced "enhanced-detection-error" h7)
    have c8 := extraNameFilter_checkCand_none _
      (recover_checkCand_none env.wsTrad "detection-error" h8)
    have c9 := recover_checkCand_none env.patterns "pattern-detection-error" h9
    have c10 := recover_checkCand_none env.viaCmds "command-detection-error" h10
    have c11 := recover_checkCand_none env.settings "vs-code-settings-error" h11
    simp only [detectProjectNameWithSource, detectCore, tryStrat,
      c1, c2, c3, c4, c5, c6, c7, c8, c9, c10, c11, hcwd, hdir]
    by_cases hh : (currentDir = env.homedir || isSystemOrVSCodePath currentDir) = true
    · simp only [if_pos hh, tryStrat, c9]
      simp
    · simp only [if_neg hh]
      simp
  · intro h1 h2 h3 h4 hcwd
    have c1 := recover_checkCand_none env.advanced "advanced-detection-error" h1
    have c2 := recover_checkCand_none env.userCfg "user-config-error" h2
    have c3 := recover_checkCand_none env.activeWs "active-workspace-detection-error" h3
    have c4 := recover_checkCand_none env.pkg "package.json read error" h4
    simp only [detectProjectNameWithSource, detectCore, tryStrat,
      c1, c2, c3, c4, hcwd]

/-- C3 amended witness: the characterization applied at the all-failing
environment (method Fallback) and at the same environment with an unreadable
working directory (method Error Fallback). -/
theorem detect_cascade_amended_witness :
    detectProjectNameWithSource envAllFail =
      { name := sanitizeProjectName
          (if basename "/" ≠ "" && isValidProjectName (basename "/")
           then basename "/" else "unknown-project"),
        method := "Fallback", source := "directory-basename-fallback" } ∧
    detectProjectNameWithSource { envAllFail with cwd := .error () } =
      errorFallbackIdent := by
  constructor
  · exact (detect_cascade_amended envAllFail).2.2.1 "/" trivial trivial trivial
      trivial trivial trivial trivial trivial trivial trivial trivial rfl
      (by decide)
  · exact (detect_cascade_amended { envAllFail with cwd := .error () }).2.2.2
      trivial trivial trivial trivial rfl

end AMB
